import Mathlib

/-
Verification of the reactive MVVM runtime (src/MVVM.js) against its
natural-language specification.

The development shallowly embeds the source:

  - Dep: each reactive property carries a subscriber list (a growable list
    of watcher identifiers, in subscription order).  Dep.addSub is an
    unconditional push; Dep.notify synchronously invokes update on each
    subscriber in order (lines 15-32 of the source).
  - Watcher: holds an expression string and the construction-time baseline
    oldValue; update re-resolves the path and fires the callback exactly
    when the fresh value differs from the stale baseline (lines 37-62).
    The callback bodies of the source only write to the UI and perform
    collector-free reads of the model, so callback invocations are
    recorded in an event log rather than interpreted.
  - Observer: defineReactive rewrites every own key of a container into a
    reactive cell backed by a fresh Dep; the getter registers the ambient
    Dep.target; the setter is guarded by strict inequality, recursively
    observes a fresh container value, stores it and notifies (lines 71-109).
  - Compiler and CompileUtil: the template walk, directive dispatch, the
    mustache scanner, and the dotted-path getVal/setVal reducers
    (lines 122-276).

JavaScript values are modelled by the inductive Value below.  Objects carry
an identity tag so that strict (in)equality of the source, which is
reference equality on objects, is expressible; primitives compare by value.
Fields of an object are either plain (dep = none; never rewritten by
defineReactive) or reactive (dep = some subs).  Property access on
undefined throws (modelled by Except); access on a primitive yields
undefined without throwing; sloppy-mode assignment to a primitive is
silently ignored, all as in the JavaScript semantics the source runs under.

State-changing operations thread an explicit MState: the reactive data
tree, the watcher table, the ambient Dep.target, and the chronological
event log of update invocations and callback firings.  Dep.notify of the
source runs entirely inside the write call, so the state returned by
writeVal already contains every event of the notification cascade; nothing
is deferred.
-/

mutual
/-- Values of the embedded JavaScript fragment.  An object is an identity
tag together with its own enumerable fields in insertion order. -/
inductive Value : Type where
  | undef : Value
  | vint (n : Int) : Value
  | vstr (s : String) : Value
  | vbool (b : Bool) : Value
  | vobj (oid : Nat) (fields : Fields) : Value
inductive Fields : Type where
  | nil : Fields
  | cons (key : String) (val : Value) (dep : Option (List Nat)) (rest : Fields) : Fields
end

/-- Strict equality of the source (the === / !== comparisons): value
equality on primitives, reference (identity-tag) equality on objects. -/
def jsEq : Value → Value → Bool
  | .undef, .undef => true
  | .vint a, .vint b => a == b
  | .vstr a, .vstr b => a == b
  | .vbool a, .vbool b => a == b
  | .vobj i _, .vobj j _ => i == j
  | _, _ => false

/-- Lookup of an own field: value and dep of the first binding of the key. -/
def findField : Fields → String → Option (Value × Option (List Nat))
  | .nil, _ => none
  | .cons key val dep rest, k => if key = k then some (val, dep) else findField rest k

/-- Replacement of the value and dep of an existing field (no-op when the
key is absent; used only on present keys). -/
def setField : Fields → String → Value → Option (List Nat) → Fields
  | .nil, _, _, _ => .nil
  | .cons key val dep rest, k, v, d =>
      if key = k then .cons key v d rest else .cons key val dep (setField rest k v d)

mutual
/-- Observer.observe / Observer.defineReactive (source lines 76-108):
every own key of a container is rewritten into a reactive cell with a
fresh, empty Dep, recursing into container-valued fields first.
Non-container input is left untouched (the typeof guard of line 78). -/
def observe : Value → Value
  | .vobj oid fs => .vobj oid (observeFields fs)
  | v => v
def observeFields : Fields → Fields
  | .nil => .nil
  | .cons k v _ rest => .cons k (observe v) (some []) (observeFields rest)
end

/-- Splitting of a character list at a separator, as the split method of
JavaScript strings: the result is never empty and keeps empty segments. -/
def splitOnChar (sep : Char) : List Char → List (List Char)
  | [] => [[]]
  | c :: rest =>
      if c = sep then [] :: splitOnChar sep rest
      else match splitOnChar sep rest with
        | s :: ss => (c :: s) :: ss
        | [] => [[c]]

/-- Dotted-path segmentation, exp.split of getVal and setVal
(source lines 214 and 220). -/
def splitPath (exp : String) : List String :=
  (splitOnChar '.' exp.data).map (fun cs => String.mk cs)

/-- Dep.target carried as an optional watcher identifier; tList is the
subscription it contributes on a read. -/
def tList : Option Nat → List Nat
  | some w => [w]
  | none => []

/-- CompileUtil.getVal (source lines 213-217) threaded through the reactive
tree.  Each segment read on an object goes through the rewritten getter:
when the cell is reactive, Dep.target is pushed onto its subscriber list
unconditionally (line 94).  A read on undefined throws; a read on a
primitive yields undefined and continues.  The function returns the updated
tree together with the result or the propagated error. -/
def getValGo (t : Option Nat) : Value → List String → Value × Except Unit Value
  | v, [] => (v, .ok v)
  | .undef, _ :: _ => (.undef, .error ())
  | .vint n, _ :: rest => (.vint n, (getValGo t .undef rest).2)
  | .vstr s, _ :: rest => (.vstr s, (getValGo t .undef rest).2)
  | .vbool b, _ :: rest => (.vbool b, (getValGo t .undef rest).2)
  | .vobj oid fs, k :: rest =>
      match findField fs k with
      | some (val, some subs) =>
          let r := getValGo t val rest
          (.vobj oid (setField fs k r.1 (some (subs ++ tList t))), r.2)
      | some (val, none) =>
          let r := getValGo t val rest
          (.vobj oid (setField fs k r.1 none), r.2)
      | none => (.vobj oid fs, (getValGo t .undef rest).2)

/-- Mutation-free navigation to the cell a dotted path denotes: its current
boxed value and its dep.  Used to state hypotheses about the tree. -/
def cellAt : Value → List String → Option (Value × Option (List Nat))
  | .vobj _ fs, [k] => findField fs k
  | .vobj _ fs, k :: rest =>
      match findField fs k with
      | some (val, _) => cellAt val rest
      | none => none
  | _, _ => none

/-- Events of a notification cascade: an invocation of Watcher.update, and
a firing of the watcher callback with the new value. -/
inductive Ev : Type where
  | upd (id : Nat) : Ev
  | cb (id : Nat) (v : Value) : Ev

/-- Identifiers of the update invocations of a log, in order. -/
def updEvents : List Ev → List Nat :=
  List.filterMap (fun e => match e with | .upd i => some i | _ => none)

/-- Callback firings of a log, in order. -/
def cbEvents : List Ev → List (Nat × Value) :=
  List.filterMap (fun e => match e with | .cb i v => some (i, v) | _ => none)

/-- Global machine state: the reactive data tree (vm.$data after the
Observer pass), the watcher table in construction order (identifier,
expression, construction-time oldValue; oldValue is never rewritten, as in
the source), the ambient Dep.target, and the event log. -/
structure MState where
  data : Value
  ws : List (Nat × String × Value)
  target : Option Nat
  log : List Ev

/-- Lookup of a watcher by identifier. -/
def wlookup : List (Nat × String × Value) → Nat → Option (String × Value)
  | [], _ => none
  | (i, e, v) :: rest, id => if i = id then some (e, v) else wlookup rest id

/-- Watcher.update (source lines 56-61): re-resolve the expression with the
ambient Dep.target (null during every notification of the source), then
fire the callback exactly when the fresh value differs strictly from the
construction-time oldValue.  The update invocation itself is logged first;
a path-resolution error propagates out of the update. -/
def updateW (s : MState) (id : Nat) : MState × Except Unit Unit :=
  let s0 : MState := { s with log := s.log ++ [.upd id] }
  match wlookup s0.ws id with
  | none => (s0, .ok ())
  | some (exp, oldV) =>
      let r := getValGo s0.target s0.data (splitPath exp)
      let s1 : MState := { s0 with data := r.1 }
      match r.2 with
      | .error _ => (s1, .error ())
      | .ok newV =>
          if jsEq newV oldV then (s1, .ok ())
          else ({ s1 with log := s1.log ++ [.cb id newV] }, .ok ())

/-- Dep.notify (source lines 27-31): invoke update on every subscriber in
subscription order, synchronously; an error thrown by an update aborts the
remaining iterations and propagates. -/
def notifyAll (s : MState) : List Nat → MState × Except Unit Unit
  | [] => (s, .ok ())
  | id :: rest =>
      let r := updateW s id
      match r.2 with
      | .error e => (r.1, .error e)
      | .ok _ => notifyAll r.1 rest

/-- Assignment data.k = v on the fields of an object (the last reduce step
of CompileUtil.setVal, line 222).  An absent key is created as a plain,
non-reactive property (defineProperty never ran for it).  A plain key is
plainly reassigned.  A reactive key runs the rewritten setter of source
lines 98-106: under the strict-inequality guard the new value is observed
and stored and the subscriber list of the cell's Dep is returned for the
deferred notification; an equal value leaves everything untouched.  The
notification of the source runs after the store, reading the fully updated
tree, which the caller performs on the reassembled root. -/
def assignField : Fields → String → Value → Fields × Option (List Nat)
  | .nil, k, v => (.cons k v none .nil, none)
  | .cons key val dep rest, k, v =>
      if key = k then
        match dep with
        | none => (.cons key v none rest, none)
        | some subs =>
            if jsEq v val then (.cons key val (some subs) rest, none)
            else (.cons key (observe v) (some subs) rest, some subs)
      else
        let r := assignField rest k v
        (.cons key val dep r.1, r.2)

/-- Trailing getter read the reduce body of setVal performs after the
assignment (the return data of line 224): a reactive cell registers the
ambient Dep.target. -/
def readTouch (t : Option Nat) (fs : Fields) (k : String) : Fields :=
  match findField fs k with
  | some (val, some subs) => setField fs k val (some (subs ++ tList t))
  | _ => fs

/-- Navigation-and-assignment of CompileUtil.setVal (source lines 219-226),
without the deferred notification: intermediate segments are getter reads;
the final segment is assigned.  Assignment or read on undefined throws;
sloppy-mode assignment on a primitive is silently ignored.  The result
carries the subscriber list pending notification, if the final assignment
hit a reactive cell with a strictly different value. -/
def setNav (t : Option Nat) (v : Value) : Value → List String → Value × Except Unit (Option (List Nat))
  | base, [] => (base, .ok none)
  | .undef, _ :: _ => (.undef, .error ())
  | .vint n, [_] => (.vint n, .ok none)
  | .vstr s, [_] => (.vstr s, .ok none)
  | .vbool b, [_] => (.vbool b, .ok none)
  | .vint n, _ :: _ :: _ => (.vint n, .error ())
  | .vstr s, _ :: _ :: _ => (.vstr s, .error ())
  | .vbool b, _ :: _ :: _ => (.vbool b, .error ())
  | .vobj oid fs, [k] =>
      let r := assignField fs k v
      (.vobj oid (readTouch t r.1 k), .ok r.2)
  | .vobj oid fs, k :: rest =>
      match findField fs k with
      | some (val, some subs) =>
          let r := setNav t v val rest
          (.vobj oid (setField fs k r.1 (some (subs ++ tList t))), r.2)
      | some (val, none) =>
          let r := setNav t v val rest
          (.vobj oid (setField fs k r.1 none), r.2)
      | none => (.vobj oid fs, (setNav t v .undef rest).2)

/-- A write through CompileUtil.setVal: navigate and assign, then run the
pending Dep.notify on the updated tree.  Everything happens before the call
returns; the returned state is final. -/
def writeVal (s : MState) (exp : String) (v : Value) : MState × Except Unit Unit :=
  let r := setNav s.target v s.data (splitPath exp)
  let s1 : MState := { s with data := r.1 }
  match r.2 with
  | .error _ => (s1, .error ())
  | .ok none => (s1, .ok ())
  | .ok (some subs) => notifyAll s1 subs

/-- A read through CompileUtil.getVal under the ambient Dep.target. -/
def readVal (s : MState) (exp : String) : MState × Except Unit Value :=
  let r := getValGo s.target s.data (splitPath exp)
  ({ s with data := r.1 }, r.2)

/-- Watcher construction (source lines 38-53): set Dep.target to the new
watcher, resolve the expression once (registering with the reactive cells
the read touches), clear Dep.target, and record the result as the
construction-time baseline.  When the resolution throws, the clearing line
is skipped and Dep.target stays set, as in the source. -/
def newWatcher (s : MState) (id : Nat) (exp : String) : MState × Except Unit Unit :=
  let r := getValGo (some id) s.data (splitPath exp)
  match r.2 with
  | .error _ => ({ s with data := r.1, target := some id }, .error ())
  | .ok v =>
      ({ s with data := r.1, target := none, ws := s.ws ++ [(id, exp, v)] }, .ok ())

mutual
/-- UI nodes as the Compiler discriminates them (source lines 138-148):
element nodes with attributes in their enumeration order and child nodes,
text nodes with their text content, and comment nodes, which the walk
passes over.  Child lists are a dedicated inductive so that the tree walk
is plainly structural. -/
inductive DomNode : Type where
  | elem (attrs : List (String × String)) (children : NodeList) : DomNode
  | text (content : String) : DomNode
  | comment (content : String) : DomNode
inductive NodeList : Type where
  | nil : NodeList
  | cons (n : DomNode) (rest : NodeList) : NodeList
end

/-- Attributes of a node (empty for non-elements). -/
def attrsOf : DomNode → List (String × String)
  | .elem attrs _ => attrs
  | _ => []

/-- Whitespace test of the trim call on text content (source line 185). -/
def isWsChar (c : Char) : Bool :=
  c = ' ' || c = '\t' || c = '\x0a' || c = '\x0d'

/-- Trim of both ends of a string, as the trim method on text content. -/
def trimStr (s : String) : String :=
  String.mk ((((s.data.dropWhile isWsChar).reverse).dropWhile isWsChar).reverse)

/-- Prefix test on character lists, for the startsWith of isDirective
(source line 154). -/
def charsStartWith : List Char → List Char → Bool
  | _, [] => true
  | [], _ :: _ => false
  | c :: cs, p :: ps => c = p && charsStartWith cs ps

/-- Compiler.isDirective (source line 154): the attribute name starts with
the directive marker v- . -/
def isDirective (attrName : String) : Bool :=
  charsStartWith attrName.data "v-".data

/-- Directive-name extraction of source line 171: split the attribute name
on the dash and take the segment at index 1.  Compound names keep only
that single segment. -/
def directiveOf (attrName : String) : String :=
  String.mk ((splitOnChar '-' attrName.data).getD 1 [])

/-- Registered directive handlers of CompileUtil: the value binding model
and the text binding text (source lines 236-265).  A lookup of any other
name yields no handler and the dispatch of source line 174 throws. -/
def hasHandler (d : String) : Bool :=
  if d = "model" then true else if d = "text" then true else false

/-- Characters the dot of the interpolation regex cannot match: the
JavaScript LineTerminator set — line feed, carriage return, line separator
and paragraph separator. -/
def dotExcluded (c : Char) : Bool :=
  c = '\x0a' || c = '\x0d' || c = '\u2028' || c = '\u2029'

/-- Lazy capture of the mustache scanner: after an opening double brace,
consume at least one character and stop at the earliest closing double
brace, as the regex of source lines 188, 230 and 255.  The dot of the
regex matches no LineTerminator character.  Returns the verbatim capture
and the remainder after the closing braces. -/
def capGo : List Char → Option (List Char × List Char)
  | [] => none
  | c :: rest =>
      if dotExcluded c then none
      else match rest with
        | '\x7d' :: '\x7d' :: rem => some ([c], rem)
        | _ =>
            match capGo rest with
            | some (cap, rem) => some (c :: cap, rem)
            | none => none

/-- Global mustache scan of source lines 230 and 255: every occurrence of
an interpolation marker, in order, with its verbatim inner capture; after
a match the scan resumes past the closing braces, as the g flag does.  The
fuel argument only bounds the recursion and is always given as the input
length, which capGo never increases. -/
def scanCapsF : Nat → List Char → List (List Char)
  | fuel + 1, '\x7b' :: '\x7b' :: rest =>
      match capGo rest with
      | some (cap, rem) => cap :: scanCapsF fuel rem
      | none => scanCapsF fuel ('\x7b' :: rest)
  | fuel + 1, _ :: rest => scanCapsF fuel rest
  | _, [] => []
  | 0, _ :: _ => []

/-- Mustache scan at adequate fuel. -/
def scanCaps (cs : List Char) : List (List Char) :=
  scanCapsF cs.length cs

/-- Test of source line 188: the trimmed text content holds at least one
interpolation marker. -/
def hasInterpolation (s : String) : Bool :=
  !(scanCaps s.data).isEmpty

/-- Watcher expressions the text handler creates (source line 257): one
watcher per marker occurrence, over the verbatim capture, untrimmed. -/
def textBindingPaths (exp : String) : List String :=
  (scanCaps exp.data).map (fun cs => String.mk cs)

/-- Success of a dotted-path read against the model: whether the reduce of
getVal returns rather than throwing.  The subscriber pushes a read performs
never change which keys exist, so this is independent of Dep.target and of
any reads done earlier in the same compilation pass. -/
def readOk (m : Value) (exp : String) : Bool :=
  match (getValGo none m (splitPath exp)).2 with
  | .ok _ => true
  | .error _ => false

/-- Success of one handler invocation (source lines 236-265).  The model
handler constructs a Watcher over the expression and performs an immediate
read, so it throws exactly when the path read does; the text handler
constructs one Watcher per verbatim mustache capture and reads each, so it
throws exactly when some capture read does.  The handlers' other effects
(subscriber registration, event-listener attachment, UI writes) neither
throw nor change what later reads resolve, so success is a pure predicate
of the initial model. -/
def handlerOk (m : Value) (d exp : String) : Bool :=
  if d = "model" then readOk m exp
  else if d = "text" then (scanCaps exp.data).all (fun cap => readOk m (String.mk cap))
  else true

/-- Dispatch records of a compilation pass: the node, the handler name and
the expression the handler receives (the vm handle is the global model and
is not repeated per record). -/
abbrev Dispatch := DomNode × String × String

/-- Compiler.compileElementNode (source lines 161-177): walk the attribute
list in order; every directive-marked attribute is dispatched to the
handler its extracted name selects; a name with no registered handler makes
the dispatch of line 174 throw before any record is made, and a dispatched
handler that itself throws (a failing path read inside it) does so after
the dispatch; either error aborts the remaining attributes and propagates,
with the earlier dispatches already performed. -/
def compileAttrs (m : Value) (node : DomNode) : List (String × String) → List Dispatch × Except Unit Unit
  | [] => ([], .ok ())
  | (n, exp) :: rest =>
      if isDirective n then
        if hasHandler (directiveOf n) then
          if handlerOk m (directiveOf n) exp then
            let r := compileAttrs m node rest
            ((node, directiveOf n, exp) :: r.1, r.2)
          else ([(node, directiveOf n, exp)], .error ())
        else ([], .error ())
      else compileAttrs m node rest

mutual
/-- Processing of one child node inside Compiler.compile (source lines
197-208): an element node has its attributes compiled and is then recursed
into; a text node with interpolation in its trimmed content is dispatched
to the text handler, whose own thrown read failures propagate after the
dispatch; other nodes are passed over.  A thrown error propagates,
skipping everything that would follow. -/
def compileNode (m : Value) : DomNode → List Dispatch × Except Unit Unit
  | .elem attrs cs =>
      let r := compileAttrs m (.elem attrs cs) attrs
      match r.2 with
      | .error e => (r.1, .error e)
      | .ok _ =>
          let r2 := compileChildren m cs
          (r.1 ++ r2.1, r2.2)
  | .text content =>
      if hasInterpolation (trimStr content) then
        if handlerOk m "text" (trimStr content) then
          ([(.text content, "text", trimStr content)], .ok ())
        else ([(.text content, "text", trimStr content)], .error ())
      else ([], .ok ())
  | .comment _ => ([], .ok ())
/-- Sequential processing of a child list; an error aborts the remaining
siblings. -/
def compileChildren (m : Value) : NodeList → List Dispatch × Except Unit Unit
  | .nil => ([], .ok ())
  | .cons n rest =>
      let r := compileNode m n
      match r.2 with
      | .error e => (r.1, .error e)
      | .ok _ =>
          let r2 := compileChildren m rest
          (r.1 ++ r2.1, r2.2)
end

/-- Compiler.compile (source lines 197-208): iterate over the child nodes
of the given root against the reactive model.  The root node itself only
contributes its children; its own attributes are never examined. -/
def compile (m : Value) : DomNode → List Dispatch × Except Unit Unit
  | .elem _ cs => compileChildren m cs
  | _ => ([], .ok ())

mutual
/-- Proper descendants of a node, in depth-first pre-order: exactly the
nodes the compile walk visits. -/
def descendants : DomNode → List DomNode
  | .elem _ cs => descList cs
  | _ => []
def descList : NodeList → List DomNode
  | .nil => []
  | .cons n rest => n :: (descendants n ++ descList rest)
end

mutual
/-- Test that every handler invocation in a subtree completes: every
directive-marked attribute names a registered handler whose run succeeds
against the model, and the text handler of every interpolated text node
succeeds, so that nothing on the walk throws. -/
def allRuns (m : Value) : DomNode → Bool
  | .elem attrs cs =>
      (attrs.all fun a => !isDirective a.1 ||
        (hasHandler (directiveOf a.1) && handlerOk m (directiveOf a.1) a.2)) && allRunsL m cs
  | .text content =>
      !hasInterpolation (trimStr content) || handlerOk m "text" (trimStr content)
  | .comment _ => true
def allRunsL (m : Value) : NodeList → Bool
  | .nil => true
  | .cons n rest => allRuns m n && allRunsL m rest
end

/-- Effect of a getter read on a cell dep: a reactive dep gains the ambient
Dep.target at its end; a plain field has no dep to grow. -/
def addTarget (t : Option Nat) : Option (List Nat) → Option (List Nat)
  | some subs => some (subs ++ tList t)
  | none => none

/-! Lemmas about field lookup and replacement. -/

theorem setField_self : ∀ (fs : Fields) (k : String) (v : Value) (d : Option (List Nat)),
    findField fs k = some (v, d) → setField fs k v d = fs
  | .nil, k, v, d, h => by simp [findField] at h
  | .cons key val dep rest, k, v, d, h => by
      by_cases hk : key = k
      · simp [findField, hk] at h
        simp [setField, hk, h.1, h.2]
      · simp [findField, hk] at h
        simp [setField, hk, setField_self rest k v d h]

theorem findField_setField : ∀ (fs : Fields) (k : String) (v0 v : Value) (d0 d : Option (List Nat)),
    findField fs k = some (v0, d0) → findField (setField fs k v d) k = some (v, d)
  | .nil, k, v0, v, d0, d, h => by simp [findField] at h
  | .cons key val dep rest, k, v0, v, d0, d, h => by
      by_cases hk : key = k
      · simp [setField, hk, findField]
      · simp [findField, hk] at h
        simp [setField, hk, findField, findField_setField rest k v0 v d0 d h]

theorem observeFields_findField : ∀ (fs : Fields) (k : String) (v : Value) (d : Option (List Nat)),
    findField fs k = some (v, d) → findField (observeFields fs) k = some (observe v, some [])
  | .nil, k, v, d, h => by simp [findField] at h
  | .cons key val dep rest, k, v, d, h => by
      by_cases hk : key = k
      · simp [findField, hk] at h
        simp [observeFields, findField, hk, h.1]
      · simp [findField, hk] at h
        simp [observeFields, findField, hk, observeFields_findField rest k v d h]

theorem assignField_absent : ∀ (fs : Fields) (k : String) (v : Value),
    findField fs k = none → (assignField fs k v).2 = none
  | .nil, k, v, h => by simp [assignField]
  | .cons key val dep rest, k, v, h => by
      by_cases hk : key = k
      · simp [findField, hk] at h
      · simp [findField, hk] at h
        simp [assignField, hk, assignField_absent rest k v h]

theorem assignField_hit : ∀ (fs : Fields) (k : String) (v cur : Value) (subs : List Nat),
    findField fs k = some (cur, some subs) → jsEq v cur = false →
    assignField fs k v = (setField fs k (observe v) (some subs), some subs)
  | .nil, k, v, cur, subs, h, hne => by simp [findField] at h
  | .cons key val dep rest, k, v, cur, subs, h, hne => by
      by_cases hk : key = k
      · simp [findField, hk] at h
        simp [assignField, setField, hk, h.1, h.2, hne]
      · simp [findField, hk] at h
        simp [assignField, setField, hk, assignField_hit rest k v cur subs h hne]

theorem assignField_noop : ∀ (fs : Fields) (k : String) (v cur : Value) (subs : List Nat),
    findField fs k = some (cur, some subs) → jsEq v cur = true →
    assignField fs k v = (fs, none)
  | .nil, k, v, cur, subs, h, heq => by simp [findField] at h
  | .cons key val dep rest, k, v, cur, subs, h, heq => by
      by_cases hk : key = k
      · simp [findField, hk] at h
        simp [assignField, hk, h.1, h.2, heq]
      · simp [findField, hk] at h
        simp [assignField, hk, assignField_noop rest k v cur subs h heq]

/-! Lemmas about reads through the rewritten getters. -/

theorem getValGo_none_data : ∀ (p : List String) (v : Value), (getValGo none v p).1 = v
  | [], v => by cases v <;> rfl
  | _ :: _, .undef => rfl
  | _ :: _, .vint _ => rfl
  | _ :: _, .vstr _ => rfl
  | _ :: _, .vbool _ => rfl
  | k :: rest, .vobj oid fs => by
      simp only [getValGo]
      cases hf : findField fs k with
      | none => rfl
      | some vd =>
          obtain ⟨val, dep⟩ := vd
          cases dep with
          | none => simp [getValGo_none_data rest val, setField_self fs k val none hf]
          | some subs =>
              simp [tList, getValGo_none_data rest val, setField_self fs k val (some subs) hf]

theorem getValGo_at_cell : ∀ (p : List String) (base cur : Value) (d : Option (List Nat)) (t : Option Nat),
    cellAt base p = some (cur, d) →
    (getValGo t base p).2 = .ok cur ∧ cellAt (getValGo t base p).1 p = some (cur, addTarget t d)
  | [], base, cur, d, t, h => by cases base <;> simp [cellAt] at h
  | [k], base, cur, d, t, h => by
      cases base with
      | vobj oid fs =>
          simp only [cellAt] at h
          simp only [getValGo]
          cases d with
          | none => simp [h, cellAt, findField_setField fs k cur cur none none h, addTarget]
          | some subs =>
              simp [h, cellAt, findField_setField fs k cur cur (some subs) (some (subs ++ tList t)) h,
                addTarget]
      | undef => simp [cellAt] at h
      | vint n => simp [cellAt] at h
      | vstr s => simp [cellAt] at h
      | vbool b => simp [cellAt] at h
  | k :: k2 :: rest, base, cur, d, t, h => by
      cases base with
      | vobj oid fs =>
          simp only [cellAt] at h
          cases hf : findField fs k with
          | none => simp [hf] at h
          | some vd =>
              obtain ⟨val, dep⟩ := vd
              rw [hf] at h
              simp only at h
              have ih := getValGo_at_cell (k2 :: rest) val cur d t h
              cases dep with
              | none =>
                  simp only [getValGo, hf]
                  refine ⟨ih.1, ?_⟩
                  simp [cellAt,
                    findField_setField fs k val ((getValGo t val (k2 :: rest)).1) none none hf, ih.2]
              | some subs =>
                  simp only [getValGo, hf]
                  refine ⟨ih.1, ?_⟩
                  simp [cellAt,
                    findField_setField fs k val ((getValGo t val (k2 :: rest)).1)
                      (some subs) (some (subs ++ tList t)) hf, ih.2]
      | undef => simp [cellAt] at h
      | vint n => simp [cellAt] at h
      | vstr s => simp [cellAt] at h
      | vbool b => simp [cellAt] at h

/-! Lemmas about writes through the rewritten setters. -/

theorem setNav_at_cell : ∀ (p : List String) (base cur v : Value) (subs : List Nat) (t : Option Nat),
    cellAt base p = some (cur, some subs) → jsEq v cur = false →
    (setNav t v base p).2 = .ok (some subs) ∧
    cellAt (setNav t v base p).1 p = some (observe v, some (subs ++ tList t))
  | [], base, cur, v, subs, t, h, hne => by cases base <;> simp [cellAt] at h
  | [k], base, cur, v, subs, t, h, hne => by
      cases base with
      | vobj oid fs =>
          simp only [cellAt] at h
          have ha := assignField_hit fs k v cur subs h hne
          have hf1 : findField (setField fs k (observe v) (some subs)) k
              = some (observe v, some subs) :=
            findField_setField fs k cur (observe v) (some subs) (some subs) h
          simp only [setNav, ha, readTouch, hf1]
          refine ⟨by trivial, ?_⟩
          simp [cellAt,
            findField_setField (setField fs k (observe v) (some subs)) k (observe v) (observe v)
              (some subs) (some (subs ++ tList t)) hf1]
      | undef => simp [cellAt] at h
      | vint n => simp [cellAt] at h
      | vstr s => simp [cellAt] at h
      | vbool b => simp [cellAt] at h
  | k :: k2 :: rest, base, cur, v, subs, t, h, hne => by
      cases base with
      | vobj oid fs =>
          simp only [cellAt] at h
          cases hf : findField fs k with
          | none => simp [hf] at h
          | some vd =>
              obtain ⟨val, dep⟩ := vd
              rw [hf] at h
              simp only at h
              have ih := setNav_at_cell (k2 :: rest) val cur v subs t h hne
              cases dep with
              | none =>
                  simp only [setNav, hf]
                  refine ⟨ih.1, ?_⟩
                  simp [cellAt,
                    findField_setField fs k val ((setNav t v val (k2 :: rest)).1) none none hf, ih.2]
              | some subs1 =>
                  simp only [setNav, hf]
                  refine ⟨ih.1, ?_⟩
                  simp [cellAt,
                    findField_setField fs k val ((setNav t v val (k2 :: rest)).1)
                      (some subs1) (some (subs1 ++ tList t)) hf, ih.2]
      | undef => simp [cellAt] at h
      | vint n => simp [cellAt] at h
      | vstr s => simp [cellAt] at h
      | vbool b => simp [cellAt] at h

theorem setNav_noop : ∀ (p : List String) (base cur v : Value) (subs : List Nat),
    cellAt base p = some (cur, some subs) → jsEq v cur = true →
    setNav none v base p = (base, .ok none)
  | [], base, cur, v, subs, h, heq => by cases base <;> simp [cellAt] at h
  | [k], base, cur, v, subs, h, heq => by
      cases base with
      | vobj oid fs =>
          simp only [cellAt] at h
          have ha := assignField_noop fs k v cur subs h heq
          simp only [setNav, ha, readTouch, h]
          simp [tList, setField_self fs k cur (some subs) h]
      | undef => simp [cellAt] at h
      | vint n => simp [cellAt] at h
      | vstr s => simp [cellAt] at h
      | vbool b => simp [cellAt] at h
  | k :: k2 :: rest, base, cur, v, subs, h, heq => by
      cases base with
      | vobj oid fs =>
          simp only [cellAt] at h
          cases hf : findField fs k with
          | none => simp [hf] at h
          | some vd =>
              obtain ⟨val, dep⟩ := vd
              rw [hf] at h
              simp only at h
              have ih := setNav_noop (k2 :: rest) val cur v subs h heq
              cases dep with
              | none =>
                  simp only [setNav, hf, ih]
                  simp [setField_self fs k val none hf]
              | some subs1 =>
                  simp only [setNav, hf, ih]
                  simp [tList, setField_self fs k val (some subs1) hf]
      | undef => simp [cellAt] at h
      | vint n => simp [cellAt] at h
      | vstr s => simp [cellAt] at h
      | vbool b => simp [cellAt] at h

/-! Lemmas about Watcher.update, Dep.notify and construction. -/

theorem updateW_eq (s : MState) (id : Nat) :
    updateW s id =
      match wlookup s.ws id with
      | none => ({ s with log := s.log ++ [.upd id] }, .ok ())
      | some (exp, oldV) =>
          match (getValGo s.target s.data (splitPath exp)).2 with
          | .error _ => ({ s with data := (getValGo s.target s.data (splitPath exp)).1, log := s.log ++ [.upd id] }, .error ())
          | .ok newV =>
              if jsEq newV oldV then
                ({ s with data := (getValGo s.target s.data (splitPath exp)).1, log := s.log ++ [.upd id] }, .ok ())
              else
                ({ s with data := (getValGo s.target s.data (splitPath exp)).1, log := (s.log ++ [.upd id]) ++ [.cb id newV] }, .ok ()) := rfl

theorem updateW_ws (s : MState) (id : Nat) : (updateW s id).1.ws = s.ws := by
  rw [updateW_eq]
  cases wlookup s.ws id with
  | none => rfl
  | some ev =>
      obtain ⟨exp, oldV⟩ := ev
      simp only
      cases (getValGo s.target s.data (splitPath exp)).2 with
      | error e => rfl
      | ok newV => by_cases h : jsEq newV oldV <;> simp [h]

theorem updateW_target (s : MState) (id : Nat) : (updateW s id).1.target = s.target := by
  rw [updateW_eq]
  cases wlookup s.ws id with
  | none => rfl
  | some ev =>
      obtain ⟨exp, oldV⟩ := ev
      simp only
      cases (getValGo s.target s.data (splitPath exp)).2 with
      | error e => rfl
      | ok newV => by_cases h : jsEq newV oldV <;> simp [h]

theorem updateW_data_none (s : MState) (id : Nat) (ht : s.target = none) :
    (updateW s id).1.data = s.data := by
  rw [updateW_eq, ht]
  cases wlookup s.ws id with
  | none => rfl
  | some ev =>
      obtain ⟨exp, oldV⟩ := ev
      simp only
      cases (getValGo none s.data (splitPath exp)).2 with
      | error e => simp [getValGo_none_data]
      | ok newV => by_cases h : jsEq newV oldV <;> simp [h, getValGo_none_data]

theorem updateW_updEvents (s : MState) (id : Nat) :
    updEvents (updateW s id).1.log = updEvents s.log ++ [id] := by
  rw [updateW_eq]
  cases wlookup s.ws id with
  | none => simp [updEvents, List.filterMap_append]
  | some ev =>
      obtain ⟨exp, oldV⟩ := ev
      simp only
      cases (getValGo s.target s.data (splitPath exp)).2 with
      | error e => simp [updEvents, List.filterMap_append]
      | ok newV =>
          by_cases h : jsEq newV oldV <;> simp [h, updEvents, List.filterMap_append]

theorem updateW_fire (s : MState) (id : Nat) (exp : String) (oldV cur : Value) (d : Option (List Nat))
    (ht : s.target = none) (hw : wlookup s.ws id = some (exp, oldV))
    (hc : cellAt s.data (splitPath exp) = some (cur, d)) (hne : jsEq cur oldV = false) :
    updateW s id = ({ s with log := s.log ++ [.upd id, .cb id cur] }, .ok ()) := by
  have hg := getValGo_at_cell (splitPath exp) s.data cur d none hc
  rw [updateW_eq, hw, ht]
  simp only
  rw [hg.1]
  simp [hne, getValGo_none_data, List.append_assoc]

theorem updateW_nofire (s : MState) (id : Nat) (exp : String) (oldV cur : Value) (d : Option (List Nat))
    (ht : s.target = none) (hw : wlookup s.ws id = some (exp, oldV))
    (hc : cellAt s.data (splitPath exp) = some (cur, d)) (heq : jsEq cur oldV = true) :
    updateW s id = ({ s with log := s.log ++ [.upd id] }, .ok ()) := by
  have hg := getValGo_at_cell (splitPath exp) s.data cur d none hc
  rw [updateW_eq, hw, ht]
  simp only
  rw [hg.1]
  simp [heq, getValGo_none_data]

theorem notifyAll_preserve : ∀ (L : List Nat) (s : MState), s.target = none →
    (notifyAll s L).1.data = s.data ∧ (notifyAll s L).1.ws = s.ws ∧ (notifyAll s L).1.target = none
  | [], s, ht => ⟨rfl, rfl, ht⟩
  | id :: rest, s, ht => by
      have h1 := updateW_data_none s id ht
      have h2 := updateW_ws s id
      have h3 : (updateW s id).1.target = none := by rw [updateW_target]; exact ht
      simp only [notifyAll]
      cases hr : (updateW s id).2 with
      | error e => exact ⟨h1, h2, h3⟩
      | ok u =>
          have ih := notifyAll_preserve rest (updateW s id).1 h3
          exact ⟨ih.1.trans h1, ih.2.1.trans h2, ih.2.2⟩

theorem notifyAll_updEvents : ∀ (L : List Nat) (s : MState), (notifyAll s L).2 = .ok () →
    updEvents (notifyAll s L).1.log = updEvents s.log ++ L
  | [], s, _ => by simp [notifyAll]
  | id :: rest, s, hok => by
      revert hok
      simp only [notifyAll]
      cases hr : (updateW s id).2 with
      | error e => intro hok; exact absurd hok (by simp)
      | ok u =>
          intro hok
          have ih := notifyAll_updEvents rest (updateW s id).1 hok
          rw [ih, updateW_updEvents]
          simp

theorem notifyAll_single_fire (s : MState) (id : Nat) (exp : String) (oldV cur : Value)
    (d : Option (List Nat))
    (ht : s.target = none) (hw : wlookup s.ws id = some (exp, oldV))
    (hc : cellAt s.data (splitPath exp) = some (cur, d)) (hne : jsEq cur oldV = false) :
    notifyAll s [id] = ({ s with log := s.log ++ [.upd id, .cb id cur] }, .ok ()) := by
  have hu := updateW_fire s id exp oldV cur d ht hw hc hne
  simp [notifyAll, hu]

theorem wlookup_append_new : ∀ (ws : List (Nat × String × Value)) (id : Nat) (e : String) (v : Value),
    wlookup ws id = none → wlookup (ws ++ [(id, e, v)]) id = some (e, v)
  | [], id, e, v, _ => by simp [wlookup]
  | (i, e0, v0) :: rest, id, e, v, h => by
      by_cases hi : i = id
      · simp [wlookup, hi] at h
      · simp only [wlookup, hi] at h
        simp only [List.cons_append, wlookup, hi, if_false]
        exact wlookup_append_new rest id e v h

theorem cellAt_append_key : ∀ (p : List String) (base : Value) (oid : Nat) (gs : Fields)
    (d : Option (List Nat)) (k : String),
    cellAt base p = some (.vobj oid gs, d) → cellAt base (p ++ [k]) = findField gs k
  | [], base, oid, gs, d, k, h => by cases base <;> simp [cellAt] at h
  | [k0], base, oid, gs, d, k, h => by
      cases base with
      | vobj oid0 fs =>
          simp only [cellAt] at h
          simp [cellAt, h]
      | undef => simp [cellAt] at h
      | vint n => simp [cellAt] at h
      | vstr s => simp [cellAt] at h
      | vbool b => simp [cellAt] at h
  | k0 :: k1 :: rest, base, oid, gs, d, k, h => by
      cases base with
      | vobj oid0 fs =>
          simp only [cellAt] at h
          cases hf : findField fs k0 with
          | none => simp [hf] at h
          | some vd =>
              obtain ⟨val, dep⟩ := vd
              rw [hf] at h
              simp only at h
              have ih := cellAt_append_key (k1 :: rest) val oid gs d k h
              simp only [List.cons_append, cellAt, hf]
              exact ih
      | undef => simp [cellAt] at h
      | vint n => simp [cellAt] at h
      | vstr s => simp [cellAt] at h
      | vbool b => simp [cellAt] at h

theorem newWatcher_at_cell (s : MState) (id : Nat) (exp : String) (cur : Value)
    (d : Option (List Nat))
    (hc : cellAt s.data (splitPath exp) = some (cur, d)) :
    newWatcher s id exp
      = ({ s with data := (getValGo (some id) s.data (splitPath exp)).1, target := none, ws := s.ws ++ [(id, exp, cur)] }, .ok ()) ∧
    cellAt (getValGo (some id) s.data (splitPath exp)).1 (splitPath exp)
      = some (cur, addTarget (some id) d) := by
  have hg := getValGo_at_cell (splitPath exp) s.data cur d (some id) hc
  constructor
  · simp only [newWatcher]
    rw [hg.1]
  · exact hg.2

/-! Lemmas about strings, path splitting and the mustache scanner. -/

theorem strMkData : ∀ (s : String), String.mk s.data = s
  | .mk _ => rfl

theorem strDataAppend (a b : String) : (a ++ b).data = a.data ++ b.data := by
  cases a; cases b; rfl

theorem splitOnChar_no_sep : ∀ (cs : List Char) (sep : Char), sep ∉ cs → splitOnChar sep cs = [cs]
  | [], _, _ => rfl
  | c :: rest, sep, h => by
      have hc : ¬ c = sep := fun e => h (by simp [e])
      have hrest : sep ∉ rest := fun m => h (by simp [m])
      simp [splitOnChar, hc, splitOnChar_no_sep rest sep hrest]

theorem splitPath_single (s : String) (hdot : '.' ∉ s.data) : splitPath s = [s] := by
  simp [splitPath, splitOnChar_no_sep s.data '.' hdot, strMkData]

theorem capGo_pad : ∀ (s rest : List Char), s ≠ [] → '\x7d' ∉ s →
    (∀ c ∈ s, dotExcluded c = false) →
    capGo (s ++ '\x7d' :: '\x7d' :: rest) = some (s, rest)
  | [], _, h, _, _ => absurd rfl h
  | [c], rest, _, _, hdm => by
      have hc : dotExcluded c = false := hdm c (by simp)
      simp [capGo, hc]
  | c :: c2 :: s2, rest, _, hbr, hdm => by
      have hc : dotExcluded c = false := hdm c (by simp)
      have hc2 : ¬ c2 = '\x7d' := fun e => hbr (by simp [e])
      have hbr2 : '\x7d' ∉ c2 :: s2 := fun m => hbr (by simp [List.mem_cons] at m ⊢; tauto)
      have hdm2 : ∀ d ∈ c2 :: s2, dotExcluded d = false :=
        fun d m => hdm d (List.mem_cons_of_mem c m)
      have ih := capGo_pad (c2 :: s2) rest (by simp) hbr2 hdm2
      rw [capGo.eq_def]
      simp only [List.cons_append]
      rw [if_neg (by simp [hc])]
      split
      · rename_i heq
        injection heq with e1 e2
        exact absurd e1 hc2
      · rw [List.cons_append] at ih
        rw [ih]

theorem scanCapsF_nil : ∀ (n : Nat), scanCapsF n [] = []
  | 0 => rfl
  | _ + 1 => rfl

theorem scanCaps_single (s : List Char) (h1 : s ≠ []) (h2 : '\x7d' ∉ s)
    (h3 : ∀ c ∈ s, dotExcluded c = false) :
    scanCaps ('\x7b' :: '\x7b' :: (s ++ ['\x7d', '\x7d'])) = [s] := by
  have hcap := capGo_pad s [] h1 h2 h3
  have hlen : ('\x7b' :: '\x7b' :: (s ++ ['\x7d', '\x7d'])).length = (s.length + 3) + 1 := by
    simp
  simp only [scanCaps]
  rw [hlen]
  simp only [scanCapsF]
  rw [hcap]
  simp [scanCapsF_nil]

/-! Lemmas about the compile walk. -/

theorem compileAttrs_ok : ∀ (attrs : List (String × String)) (m : Value) (node : DomNode),
    (attrs.all fun a => !isDirective a.1 ||
      (hasHandler (directiveOf a.1) && handlerOk m (directiveOf a.1) a.2)) = true →
    (compileAttrs m node attrs).2 = .ok ()
  | [], _, _, _ => rfl
  | (n, x) :: rest, m, node, h => by
      simp only [List.all_cons, Bool.and_eq_true] at h
      by_cases hd : isDirective n
      · have hh : hasHandler (directiveOf n) = true ∧ handlerOk m (directiveOf n) x = true := by
          have := h.1
          simp [hd] at this
          exact this
        simp [compileAttrs, hd, hh.1, hh.2, compileAttrs_ok rest m node h.2]
      · simp [compileAttrs, hd, compileAttrs_ok rest m node h.2]

theorem mem_compileAttrs : ∀ (attrs : List (String × String)) (m : Value) (node : DomNode) (nm x : String),
    (nm, x) ∈ attrs → isDirective nm = true →
    (attrs.all fun a => !isDirective a.1 ||
      (hasHandler (directiveOf a.1) && handlerOk m (directiveOf a.1) a.2)) = true →
    (node, directiveOf nm, x) ∈ (compileAttrs m node attrs).1
  | [], _, _, _, _, hm, _, _ => absurd hm (by simp)
  | (n0, x0) :: rest, m, node, nm, x, hm, hd, hall => by
      simp only [List.all_cons, Bool.and_eq_true] at hall
      rcases List.mem_cons.mp hm with he | hm2
      · obtain ⟨e1, e2⟩ := Prod.mk.injEq nm x n0 x0 ▸ he
        subst e1; subst e2
        have hh : hasHandler (directiveOf nm) = true ∧ handlerOk m (directiveOf nm) x = true := by
          have := hall.1
          simp [hd] at this
          exact this
        simp [compileAttrs, hd, hh.1, hh.2]
      · by_cases hd0 : isDirective n0
        · have hh0 : hasHandler (directiveOf n0) = true ∧ handlerOk m (directiveOf n0) x0 = true := by
            have := hall.1
            simp [hd0] at this
            exact this
          simp only [compileAttrs, hd0, hh0.1, hh0.2, if_true]
          exact List.mem_cons_of_mem _ (mem_compileAttrs rest m node nm x hm2 hd hall.2)
        · simp only [compileAttrs, hd0, if_false, Bool.false_eq_true]
          exact mem_compileAttrs rest m node nm x hm2 hd hall.2

mutual
theorem compileNode_ok : ∀ (m : Value) (node : DomNode),
    allRuns m node = true → (compileNode m node).2 = .ok ()
  | m, .elem attrs cs, h => by
      simp only [allRuns, Bool.and_eq_true] at h
      simp only [compileNode]
      rw [compileAttrs_ok attrs m (.elem attrs cs) h.1]
      simp only
      exact compileChildren_ok m cs h.2
  | m, .text content, h => by
      simp only [allRuns] at h
      by_cases hi : hasInterpolation (trimStr content)
      · have hok : handlerOk m "text" (trimStr content) = true := by
          simp [hi] at h
          exact h
        simp [compileNode, hi, hok]
      · simp [compileNode, hi]
  | _, .comment _, _ => rfl
theorem compileChildren_ok : ∀ (m : Value) (L : NodeList),
    allRunsL m L = true → (compileChildren m L).2 = .ok ()
  | _, .nil, _ => rfl
  | m, .cons n rest, h => by
      simp only [allRunsL, Bool.and_eq_true] at h
      simp only [compileChildren]
      rw [compileNode_ok m n h.1]
      simp only
      exact compileChildren_ok m rest h.2
end

theorem mem_compileNode_self (m : Value) (e : DomNode) (nm x : String) (h : allRuns m e = true)
    (ha : (nm, x) ∈ attrsOf e) (hd : isDirective nm = true) :
    (e, directiveOf nm, x) ∈ (compileNode m e).1 := by
  cases e with
  | elem attrs cs =>
      simp only [allRuns, Bool.and_eq_true] at h
      simp only [attrsOf] at ha
      simp only [compileNode]
      rw [compileAttrs_ok attrs m (.elem attrs cs) h.1]
      simp only
      exact List.mem_append_left _ (mem_compileAttrs attrs m (.elem attrs cs) nm x ha hd h.1)
  | text c => simp [attrsOf] at ha
  | comment c => simp [attrsOf] at ha

mutual
theorem mem_compileNode : ∀ (m : Value) (node e : DomNode) (nm x : String),
    allRuns m node = true → e ∈ descendants node → (nm, x) ∈ attrsOf e → isDirective nm = true →
    (e, directiveOf nm, x) ∈ (compileNode m node).1
  | m, .elem attrs cs, e, nm, x, h, he, ha, hd => by
      simp only [allRuns, Bool.and_eq_true] at h
      simp only [descendants] at he
      simp only [compileNode]
      rw [compileAttrs_ok attrs m (.elem attrs cs) h.1]
      simp only
      exact List.mem_append_right _ (mem_compileChildren m cs e nm x h.2 he ha hd)
  | _, .text c, e, nm, x, h, he, ha, hd => by simp [descendants] at he
  | _, .comment c, e, nm, x, h, he, ha, hd => by simp [descendants] at he
theorem mem_compileChildren : ∀ (m : Value) (L : NodeList) (e : DomNode) (nm x : String),
    allRunsL m L = true → e ∈ descList L → (nm, x) ∈ attrsOf e → isDirective nm = true →
    (e, directiveOf nm, x) ∈ (compileChildren m L).1
  | _, .nil, e, nm, x, _, he, _, _ => by simp [descList] at he
  | m, .cons n rest, e, nm, x, h, he, ha, hd => by
      simp only [allRunsL, Bool.and_eq_true] at h
      simp only [descList] at he
      simp only [compileChildren]
      rw [compileNode_ok m n h.1]
      simp only
      rcases List.mem_cons.mp he with rfl | he2
      · exact List.mem_append_left _ (mem_compileNode_self m e nm x h.1 ha hd)
      · rcases List.mem_append.mp he2 with hd1 | hrest
        · exact List.mem_append_left _ (mem_compileNode m n e nm x h.1 hd1 ha hd)
        · exact List.mem_append_right _ (mem_compileChildren m rest e nm x h.2 hrest ha hd)
end

/-! Composite helper lemmas for whole write cascades. -/

theorem getValGo_nil (t : Option Nat) (v : Value) : getValGo t v [] = (v, .ok v) := by
  cases v <;> rfl

theorem jsEq_observe_left : ∀ (v x : Value), jsEq (observe v) x = jsEq v x
  | .undef, _ => rfl
  | .vint _, _ => rfl
  | .vstr _, _ => rfl
  | .vbool _, _ => rfl
  | .vobj oid fs, x => by cases x <;> simp [observe, jsEq]

theorem notifyAll_single_nofire (s : MState) (id : Nat) (exp : String) (oldV cur : Value)
    (d : Option (List Nat))
    (ht : s.target = none) (hw : wlookup s.ws id = some (exp, oldV))
    (hc : cellAt s.data (splitPath exp) = some (cur, d)) (heq : jsEq cur oldV = true) :
    notifyAll s [id] = ({ s with log := s.log ++ [.upd id] }, .ok ()) := by
  have hu := updateW_nofire s id exp oldV cur d ht hw hc heq
  simp [notifyAll, hu]

theorem writeVal_to_notify (s : MState) (exp : String) (v cur : Value) (subs : List Nat)
    (hcell : cellAt s.data (splitPath exp) = some (cur, some subs))
    (hneq : jsEq v cur = false) :
    writeVal s exp v
      = notifyAll { s with data := (setNav s.target v s.data (splitPath exp)).1 } subs := by
  have hs := setNav_at_cell (splitPath exp) s.data cur v subs s.target hcell hneq
  simp only [writeVal]
  rw [hs.1]

theorem writeVal_fire (s : MState) (exp : String) (v cur oldV : Value) (w : Nat)
    (ht : s.target = none)
    (hcell : cellAt s.data (splitPath exp) = some (cur, some [w]))
    (hneq : jsEq v cur = false)
    (hw : wlookup s.ws w = some (exp, oldV))
    (hcb : jsEq (observe v) oldV = false) :
    writeVal s exp v
      = ({ s with data := (setNav none v s.data (splitPath exp)).1, log := s.log ++ [.upd w, .cb w (observe v)] }, .ok ())
    ∧ cellAt (setNav none v s.data (splitPath exp)).1 (splitPath exp) = some (observe v, some [w]) := by
  have hs := setNav_at_cell (splitPath exp) s.data cur v [w] none hcell hneq
  have hs2 : cellAt (setNav none v s.data (splitPath exp)).1 (splitPath exp)
      = some (observe v, some [w]) := by
    have := hs.2
    simpa [tList] using this
  refine ⟨?_, hs2⟩
  have hto := writeVal_to_notify s exp v cur [w] hcell hneq
  rw [hto, ht]
  exact notifyAll_single_fire _ w exp oldV (observe v) (some [w]) rfl hw hs2 hcb

theorem writeVal_nofire_upd (s : MState) (exp : String) (v cur oldV : Value) (w : Nat)
    (ht : s.target = none)
    (hcell : cellAt s.data (splitPath exp) = some (cur, some [w]))
    (hneq : jsEq v cur = false)
    (hw : wlookup s.ws w = some (exp, oldV))
    (hcb : jsEq (observe v) oldV = true) :
    writeVal s exp v
      = ({ s with data := (setNav none v s.data (splitPath exp)).1, log := s.log ++ [.upd w] }, .ok ())
    ∧ cellAt (setNav none v s.data (splitPath exp)).1 (splitPath exp) = some (observe v, some [w]) := by
  have hs := setNav_at_cell (splitPath exp) s.data cur v [w] none hcell hneq
  have hs2 : cellAt (setNav none v s.data (splitPath exp)).1 (splitPath exp)
      = some (observe v, some [w]) := by
    have := hs.2
    simpa [tList] using this
  refine ⟨?_, hs2⟩
  have hto := writeVal_to_notify s exp v cur [w] hcell hneq
  rw [hto, ht]
  exact notifyAll_single_nofire _ w exp oldV (observe v) (some [w]) rfl hw hs2 hcb

/-! Claim theorems. -/

/-- C1: for every reactive property with N watchers subscribed to its
Dependency (each registered once), a write of a strictly different value
invokes each watcher's update exactly once, synchronously, in subscription
order, and all updates complete before the write call returns: the state
writeVal returns already contains the update events of exactly the
subscriber list, appended in subscription order, one per watcher. -/
theorem write_notifies_each_subscriber_once_in_order
    (s : MState) (exp : String) (v cur : Value) (subs : List Nat)
    (hcell : cellAt s.data (splitPath exp) = some (cur, some subs))
    (hnodup : subs.Nodup)
    (hneq : jsEq v cur = false)
    (hok : (writeVal s exp v).2 = .ok ()) :
    updEvents (writeVal s exp v).1.log = updEvents s.log ++ subs ∧
    ∀ w ∈ subs, (updEvents (writeVal s exp v).1.log).count w = (updEvents s.log).count w + 1 := by
  have hto := writeVal_to_notify s exp v cur subs hcell hneq
  rw [hto] at hok ⊢
  have hlog := notifyAll_updEvents subs _ hok
  refine ⟨hlog, fun w hwmem => ?_⟩
  rw [hlog]
  simp only [List.count_append]
  have h1 : subs.count w = 1 := List.count_eq_one_of_mem hnodup hwmem
  omega

theorem write_notifies_each_subscriber_once_in_order_witness :
    updEvents (writeVal ⟨.vobj 0 (.cons "a" (.vint 0) (some [0, 1]) .nil), [(0, "a", .vint 0), (1, "a", .vint 0)], none, []⟩ "a" (.vint 1)).1.log
      = updEvents ([] : List Ev) ++ [0, 1] ∧
    ∀ w ∈ [0, 1],
      (updEvents (writeVal ⟨.vobj 0 (.cons "a" (.vint 0) (some [0, 1]) .nil), [(0, "a", .vint 0), (1, "a", .vint 0)], none, []⟩ "a" (.vint 1)).1.log).count w
        = (updEvents ([] : List Ev)).count w + 1 :=
  write_notifies_each_subscriber_once_in_order
    ⟨.vobj 0 (.cons "a" (.vint 0) (some [0, 1]) .nil), [(0, "a", .vint 0), (1, "a", .vint 0)], none, []⟩
    "a" (.vint 1) (.vint 0) [0, 1] rfl (by decide) rfl rfl

/-- C3: for every reactive property, a write whose new value is strictly
equal to the currently stored value invokes no notify, performs no
recursive wrapping, and leaves the stored value and subscriber list
unchanged: writeVal returns the state completely untouched. -/
theorem equal_write_is_noop (s : MState) (exp : String) (v cur : Value) (subs : List Nat)
    (ht : s.target = none)
    (hcell : cellAt s.data (splitPath exp) = some (cur, some subs))
    (heq : jsEq v cur = true) :
    writeVal s exp v = (s, .ok ()) := by
  have hs := setNav_noop (splitPath exp) s.data cur v subs hcell heq
  simp only [writeVal, ht, hs]
  rw [← ht]

theorem equal_write_is_noop_witness :
    writeVal ⟨.vobj 0 (.cons "a" (.vint 5) (some [3]) .nil), [(3, "a", .vint 5)], none, []⟩ "a" (.vint 5)
      = (⟨.vobj 0 (.cons "a" (.vint 5) (some [3]) .nil), [(3, "a", .vint 5)], none, []⟩, .ok ()) :=
  equal_write_is_noop
    ⟨.vobj 0 (.cons "a" (.vint 5) (some [3]) .nil), [(3, "a", .vint 5)], none, []⟩
    "a" (.vint 5) (.vint 5) [3] rfl rfl rfl

/-- C10: Watcher.update resolves its path with the active-collector
reference unset, so a notification cycle never adds a subscriber to any
Dependency: a collector-free read returns the reactive tree unchanged, and
a whole notification pass leaves the data tree (hence every subscriber
list) and the watcher table exactly as they were. -/
theorem notify_cycle_adds_no_subscribers (s : MState) (L : List Nat) (ht : s.target = none) :
    (∀ p, (getValGo none s.data p).1 = s.data) ∧
    (notifyAll s L).1.data = s.data ∧ (notifyAll s L).1.ws = s.ws := by
  refine ⟨fun p => getValGo_none_data p s.data, ?_, ?_⟩
  · exact (notifyAll_preserve L s ht).1
  · exact (notifyAll_preserve L s ht).2.1

theorem notify_cycle_adds_no_subscribers_witness :
    (getValGo none (Value.vobj 0 (.cons "a" (.vint 1) (some [0]) .nil)) ["a"]).1
      = Value.vobj 0 (.cons "a" (.vint 1) (some [0]) .nil) ∧
    (notifyAll ⟨.vobj 0 (.cons "a" (.vint 1) (some [0]) .nil), [(0, "a", .vint 0)], none, []⟩ [0, 0]).1.data
      = .vobj 0 (.cons "a" (.vint 1) (some [0]) .nil) ∧
    (notifyAll ⟨.vobj 0 (.cons "a" (.vint 1) (some [0]) .nil), [(0, "a", .vint 0)], none, []⟩ [0, 0]).1.ws
      = [(0, "a", .vint 0)] :=
  ⟨(notify_cycle_adds_no_subscribers ⟨.vobj 0 (.cons "a" (.vint 1) (some [0]) .nil), [(0, "a", .vint 0)], none, []⟩ [0, 0] rfl).1 ["a"],
   (notify_cycle_adds_no_subscribers ⟨.vobj 0 (.cons "a" (.vint 1) (some [0]) .nil), [(0, "a", .vint 0)], none, []⟩ [0, 0] rfl).2.1,
   (notify_cycle_adds_no_subscribers ⟨.vobj 0 (.cons "a" (.vint 1) (some [0]) .nil), [(0, "a", .vint 0)], none, []⟩ [0, 0] rfl).2.2⟩

/-- C5: compiling an element whose attributes are, in order, v-model and
then v-unknown binds the first path through the model handler, then the
missing-handler dispatch on the second attribute throws, aborting the
remaining attributes and propagating, so none of that element's children
(an arbitrary child list) are compiled: against every model, the dispatch
list holds exactly the one model dispatch and the pass ends in the error,
whether the model handler's own read succeeds or itself throws. -/
theorem unknown_directive_aborts_node_and_children (m : Value) (a b : String) (cs : NodeList) :
    compile m (.elem [] (.cons (.elem [("v-model", a), ("v-unknown", b)] cs) .nil))
      = ([(.elem [("v-model", a), ("v-unknown", b)] cs, "model", a)], .error ()) := by
  have hdd1 : directiveOf "v-model" = "model" := rfl
  have hdd2 : directiveOf "v-unknown" = "unknown" := rfl
  have hi1 : isDirective "v-model" = true := rfl
  have hi2 : isDirective "v-unknown" = true := rfl
  have hh1 : hasHandler "model" = true := rfl
  have hh2 : hasHandler "unknown" = false := rfl
  by_cases h : handlerOk m "model" a <;>
    simp [compile, compileChildren, compileNode, compileAttrs, hdd1, hdd2, hi1, hi2, hh1, hh2, h]

/-- C6 counterexample: the claim says every absent path segment raises a
fatal error at the point of access, but a read of the absent final segment
b on a model holding only a returns undefined with no error, and a write
to the absent final segment b succeeds, creating a plain non-reactive key
instead of raising. -/
theorem absent_segment_fatal_counterexample :
    (getValGo none (observe (.vobj 0 (.cons "a" (.vint 1) none .nil))) (splitPath "b")).2
      = .ok .undef ∧
    (writeVal ⟨observe (.vobj 0 (.cons "a" (.vint 1) none .nil)), [], none, []⟩ "b" (.vint 5)).2
      = .ok () ∧
    (writeVal ⟨observe (.vobj 0 (.cons "a" (.vint 1) none .nil)), [], none, []⟩ "b" (.vint 5)).1.data
      = .vobj 0 (.cons "a" (.vint 1) (some []) (.cons "b" (.vint 5) none .nil)) :=
  ⟨rfl, rfl, rfl⟩

/-- C6 amended: an absent intermediate segment (one whose missing value is
itself dereferenced by a later segment) makes the read and the write throw
a fatal, unrecovered error with no default-value fallback, while an absent
final segment is not an error: a read yields undefined and a write creates
a plain key. -/
theorem absent_intermediate_segment_fatal (t : Option Nat) (oid : Nat) (fs : Fields)
    (k seg : String) (rest : List String) (v : Value)
    (hmiss : findField fs k = none) :
    (getValGo t (.vobj oid fs) (k :: seg :: rest)).2 = .error () ∧
    (setNav t v (.vobj oid fs) (k :: seg :: rest)).2 = .error () ∧
    (getValGo t (.vobj oid fs) [k]).2 = .ok .undef ∧
    (setNav t v (.vobj oid fs) [k]).2 = .ok none := by
  refine ⟨?_, ?_, ?_, ?_⟩
  · simp [getValGo, hmiss]
  · simp [setNav, hmiss]
  · simp [getValGo, hmiss]
  · simp [setNav, hmiss, assignField_absent fs k v]

theorem absent_intermediate_segment_fatal_witness :
    (getValGo none (.vobj 0 (.cons "a" (.vint 1) (some []) .nil)) ["b", "c"]).2 = .error () ∧
    (setNav none (.vint 5) (.vobj 0 (.cons "a" (.vint 1) (some []) .nil)) ["b", "c"]).2 = .error () ∧
    (getValGo none (.vobj 0 (.cons "a" (.vint 1) (some []) .nil)) ["b"]).2 = .ok .undef ∧
    (setNav none (.vint 5) (.vobj 0 (.cons "a" (.vint 1) (some []) .nil)) ["b"]).2 = .ok none :=
  absent_intermediate_segment_fatal none 0 (.cons "a" (.vint 1) (some []) .nil) "b" "c" [] (.vint 5) rfl

/-- C8 counterexample: the claim includes the root element itself, but the
compile walk of the source only iterates the child nodes of the node it is
given, so the root's own directive attribute — registered, and with a
handler run that succeeds against the model — produces no dispatch at all:
compiling a root that carries v-model yields an empty dispatch list. -/
theorem root_directive_attribute_never_dispatched :
    isDirective "v-model" = true ∧ hasHandler (directiveOf "v-model") = true ∧
    handlerOk (.vobj 0 (.cons "a" (.vint 0) (some []) .nil)) (directiveOf "v-model") "a" = true ∧
    ("v-model", "a") ∈ attrsOf (DomNode.elem [("v-model", "a")] .nil) ∧
    compile (.vobj 0 (.cons "a" (.vint 0) (some []) .nil)) (.elem [("v-model", "a")] .nil)
      = ([], .ok ()) := by
  refine ⟨rfl, rfl, rfl, ?_, rfl⟩
  simp [attrsOf]

/-- C8 amended: for every element node strictly below the node passed to
compile (the root's own attributes are never examined), every attribute
whose name begins with the directive marker is dispatched to its
registered handler with the node and attribute value, during compilation,
whenever every handler invocation on the walk completes: every directive
attribute in the tree names a registered handler whose run succeeds
against the model, and the text handler of every interpolated text node
succeeds, so nothing on the walk throws and aborts it early. -/
theorem descendant_directives_dispatched (m : Value) (root e : DomNode) (nm x : String)
    (hk : allRuns m root = true) (he : e ∈ descendants root)
    (ha : (nm, x) ∈ attrsOf e) (hd : isDirective nm = true) :
    (e, directiveOf nm, x) ∈ (compile m root).1 := by
  cases root with
  | elem attrs cs =>
      simp only [allRuns, Bool.and_eq_true] at hk
      simp only [descendants] at he
      simp only [compile]
      exact mem_compileChildren m cs e nm x hk.2 he ha hd
  | text c => simp [descendants] at he
  | comment c => simp [descendants] at he

theorem descendant_directives_dispatched_witness :
    (DomNode.elem [("v-model", "a")] .nil, directiveOf "v-model", "a")
      ∈ (compile (.vobj 0 (.cons "a" (.vint 0) (some []) .nil))
          (.elem [] (.cons (.elem [("v-model", "a")] .nil) .nil))).1 :=
  descendant_directives_dispatched
    (.vobj 0 (.cons "a" (.vint 0) (some []) .nil))
    (.elem [] (.cons (.elem [("v-model", "a")] .nil) .nil))
    (.elem [("v-model", "a")] .nil) "v-model" "a" rfl
    (by simp [descendants, descList]) (by simp [attrsOf]) rfl

/-- C2 counterexample: taking baseline 0, writing 1 (callback fires with 1)
and writing back to the original baseline 0 runs update a second time, but
the fresh value now equals the never-refreshed baseline, so the callback is
NOT invoked again: the full log shows a single callback event, where the
claim predicts a second one. -/
theorem stale_baseline_return_write_refires_counterexample :
    (writeVal (writeVal (newWatcher ⟨observe (.vobj 0 (.cons "a" (.vint 0) none .nil)), [], none, []⟩ 0 "a").1 "a" (.vint 1)).1 "a" (.vint 0)).1.log
      = [.upd 0, .cb 0 (.vint 1), .upd 0] ∧
    cbEvents (writeVal (writeVal (newWatcher ⟨observe (.vobj 0 (.cons "a" (.vint 0) none .nil)), [], none, []⟩ 0 "a").1 "a" (.vint 1)).1 "a" (.vint 0)).1.log
      = [(0, .vint 1)] :=
  ⟨rfl, rfl⟩

/-- C2 amended: for every Watcher with construction-time baseline v0, after
the watched property is written to a different value v1 (firing the
callback) and then written back to v0, the next notify-driven update treats
the current value as UNCHANGED relative to the original baseline v0 and
does not invoke the callback again: the complete log of the two writes is
update, callback with v1, update — the second update fires nothing, and the
bound UI keeps the stale intermediate value. -/
theorem stale_baseline_return_write_no_refire (k : String) (oid w : Nat) (n0 n1 : Int)
    (hdot : '.' ∉ k.data) (hne : n0 ≠ n1) :
    (writeVal (writeVal (newWatcher ⟨observe (.vobj oid (.cons k (.vint n0) none .nil)), [], none, []⟩ w k).1 k (.vint n1)).1 k (.vint n0)).1.log
      = [.upd w, .cb w (.vint n1), .upd w] := by
  have hsp : splitPath k = [k] := splitPath_single k hdot
  have hobs : observe (.vobj oid (.cons k (.vint n0) none .nil))
      = .vobj oid (.cons k (.vint n0) (some []) .nil) := rfl
  have hc0 : cellAt (Value.vobj oid (.cons k (.vint n0) (some []) .nil)) (splitPath k)
      = some (.vint n0, some []) := by
    rw [hsp]; simp [cellAt, findField]
  have hw1 := newWatcher_at_cell ⟨.vobj oid (.cons k (.vint n0) (some []) .nil), [], none, []⟩
    w k (.vint n0) (some []) hc0
  have hd1 : (getValGo (some w) (Value.vobj oid (.cons k (.vint n0) (some []) .nil)) (splitPath k)).1
      = .vobj oid (.cons k (.vint n0) (some [w]) .nil) := by
    rw [hsp]; simp [getValGo, findField, setField, tList, getValGo_nil]
  have hs1 : (newWatcher ⟨observe (.vobj oid (.cons k (.vint n0) none .nil)), [], none, []⟩ w k).1
      = ⟨.vobj oid (.cons k (.vint n0) (some [w]) .nil), [(w, k, .vint n0)], none, []⟩ := by
    rw [hobs, hw1.1]
    simp [hd1]
  have hj10 : jsEq (.vint n1) (.vint n0) = false := by
    simp only [jsEq, beq_eq_false_iff_ne]
    exact fun e => hne e.symm
  have hj01 : jsEq (.vint n0) (.vint n1) = false := by
    simp only [jsEq, beq_eq_false_iff_ne]
    exact hne
  have hc1 : cellAt (Value.vobj oid (.cons k (.vint n0) (some [w]) .nil)) (splitPath k)
      = some (.vint n0, some [w]) := by
    rw [hsp]; simp [cellAt, findField]
  have hwl1 : wlookup [(w, k, Value.vint n0)] w = some (k, .vint n0) := by simp [wlookup]
  have hstep2 := writeVal_fire
    ⟨.vobj oid (.cons k (.vint n0) (some [w]) .nil), [(w, k, .vint n0)], none, []⟩
    k (.vint n1) (.vint n0) (.vint n0) w rfl hc1 hj10 hwl1 (by simpa [observe] using hj10)
  have hd2 : (setNav none (Value.vint n1) (Value.vobj oid (.cons k (.vint n0) (some [w]) .nil)) (splitPath k)).1
      = .vobj oid (.cons k (.vint n1) (some [w]) .nil) := by
    rw [hsp]; simp [setNav, assignField, readTouch, findField, setField, tList, hj10, observe]
  have hs2 : (writeVal ⟨.vobj oid (.cons k (.vint n0) (some [w]) .nil), [(w, k, .vint n0)], none, []⟩ k (.vint n1)).1
      = ⟨.vobj oid (.cons k (.vint n1) (some [w]) .nil), [(w, k, .vint n0)], none, [.upd w, .cb w (.vint n1)]⟩ := by
    rw [hstep2.1]
    simp [hd2, observe]
  have hc2 : cellAt (Value.vobj oid (.cons k (.vint n1) (some [w]) .nil)) (splitPath k)
      = some (.vint n1, some [w]) := by
    rw [hsp]; simp [cellAt, findField]
  have hstep3 := writeVal_nofire_upd
    ⟨.vobj oid (.cons k (.vint n1) (some [w]) .nil), [(w, k, .vint n0)], none, [.upd w, .cb w (.vint n1)]⟩
    k (.vint n0) (.vint n1) (.vint n0) w rfl hc2 hj01 hwl1 (by simp [observe, jsEq])
  rw [hs1, hs2, hstep3.1]
  simp

theorem stale_baseline_return_write_no_refire_witness :
    (writeVal (writeVal (newWatcher ⟨observe (.vobj 0 (.cons "a" (.vint 0) none .nil)), [], none, []⟩ 0 "a").1 "a" (.vint 1)).1 "a" (.vint 0)).1.log
      = [.upd 0, .cb 0 (.vint 1), .upd 0] :=
  stale_baseline_return_write_no_refire "a" 0 0 0 1 (by decide) (by decide)

/-- C7: for every reactive property and every active collector, each read
of the property while that collector is set appends the collector to the
property's Dependency subscriber list unconditionally (no existence
check): two reads under the same collector register it twice (the second
append happens although the watcher is already subscribed), and a
subsequent genuine-change write invokes that watcher's update twice, once
per registration. -/
theorem duplicate_subscription_double_update (s : MState) (exp : String) (cur v : Value)
    (subs : List Nat) (w : Nat)
    (ht : s.target = some w)
    (hcell : cellAt s.data (splitPath exp) = some (cur, some subs))
    (hneq : jsEq v cur = false)
    (hok : (writeVal { (readVal (readVal s exp).1 exp).1 with target := none } exp v).2 = .ok ()) :
    cellAt (readVal (readVal s exp).1 exp).1.data (splitPath exp)
      = some (cur, some (subs ++ [w, w])) ∧
    updEvents (writeVal { (readVal (readVal s exp).1 exp).1 with target := none } exp v).1.log
      = updEvents s.log ++ (subs ++ [w, w]) := by
  have hg1 := getValGo_at_cell (splitPath exp) s.data cur (some subs) (some w) hcell
  have hc1 : cellAt (getValGo (some w) s.data (splitPath exp)).1 (splitPath exp)
      = some (cur, some (subs ++ [w])) := by
    simpa [addTarget, tList] using hg1.2
  have e1 : (readVal s exp).1
      = { s with data := (getValGo (some w) s.data (splitPath exp)).1 } := by
    simp only [readVal, ht]
  have hg2 := getValGo_at_cell (splitPath exp) ((getValGo (some w) s.data (splitPath exp)).1)
    cur (some (subs ++ [w])) (some w) hc1
  have hc2 : cellAt (getValGo (some w) ((getValGo (some w) s.data (splitPath exp)).1) (splitPath exp)).1 (splitPath exp)
      = some (cur, some (subs ++ [w, w])) := by
    have := hg2.2
    simpa [addTarget, tList, List.append_assoc] using this
  have e2 : (readVal { s with data := (getValGo (some w) s.data (splitPath exp)).1 } exp).1
      = { s with data := (getValGo (some w) ((getValGo (some w) s.data (splitPath exp)).1) (splitPath exp)).1 } := by
    simp only [readVal, ht]
  rw [e1, e2] at hok ⊢
  refine ⟨hc2, ?_⟩
  have hto := writeVal_to_notify
    { s with data := (getValGo (some w) ((getValGo (some w) s.data (splitPath exp)).1) (splitPath exp)).1, target := none }
    exp v cur (subs ++ [w, w]) hc2 hneq
  rw [hto] at hok ⊢
  exact notifyAll_updEvents (subs ++ [w, w]) _ hok

theorem duplicate_subscription_double_update_witness :
    cellAt (readVal (readVal ⟨.vobj 0 (.cons "a" (.vint 0) (some []) .nil), [(5, "a", .vint 0)], some 5, []⟩ "a").1 "a").1.data (splitPath "a")
      = some (.vint 0, some ([] ++ [5, 5])) ∧
    updEvents (writeVal { (readVal (readVal ⟨.vobj 0 (.cons "a" (.vint 0) (some []) .nil), [(5, "a", .vint 0)], some 5, []⟩ "a").1 "a").1 with target := none } "a" (.vint 1)).1.log
      = updEvents ([] : List Ev) ++ ([] ++ [5, 5]) :=
  duplicate_subscription_double_update
    ⟨.vobj 0 (.cons "a" (.vint 0) (some []) .nil), [(5, "a", .vint 0)], some 5, []⟩
    "a" (.vint 0) (.vint 1) [] 5 rfl rfl rfl rfl

/-- C9: for every text interpolation occurrence, the captured inner text is
used verbatim (no trimming) as the binding-expression path: a template
whose braces enclose a whitespace-padded path — one the dot of the regex
can match, so free of LineTerminator characters — yields exactly the
padded capture as the watcher path, and resolving that padded path
against a model holding the unpadded key misses the key and yields
undefined instead of the stored value, while the unpadded path resolves
to it. -/
theorem interpolation_capture_verbatim_untrimmed (k : String) (oid : Nat) (v : Value)
    (subs : List Nat)
    (hne : k.data ≠ []) (hbr : '\x7d' ∉ k.data)
    (hdm : ∀ c ∈ k.data, dotExcluded c = false)
    (hdot : '.' ∉ k.data) (hv : v ≠ .undef) :
    textBindingPaths ("\x7b\x7b " ++ k ++ " \x7d\x7d") = [" " ++ k ++ " "] ∧
    (getValGo none (.vobj oid (.cons k v (some subs) .nil)) (splitPath (" " ++ k ++ " "))).2
      = .ok .undef ∧
    (getValGo none (.vobj oid (.cons k v (some subs) .nil)) (splitPath k)).2 = .ok v ∧
    (Except.ok Value.undef : Except Unit Value) ≠ .ok v := by
  have hsp1 : (" " : String).data = [' '] := rfl
  have hsp2 : ("\x7b\x7b " : String).data = ['\x7b', '\x7b', ' '] := rfl
  have hsp3 : (" \x7d\x7d" : String).data = [' ', '\x7d', '\x7d'] := rfl
  have spad : (" " ++ k ++ " ").data = ' ' :: (k.data ++ [' ']) := by
    simp [strDataAppend, hsp1]
  have htempl : ("\x7b\x7b " ++ k ++ " \x7d\x7d").data
      = '\x7b' :: '\x7b' :: ((' ' :: (k.data ++ [' '])) ++ ['\x7d', '\x7d']) := by
    simp [strDataAppend, hsp2, hsp3]
  have hs_ne : (' ' :: (k.data ++ [' '])) ≠ [] := by simp
  have hs_br : '\x7d' ∉ (' ' :: (k.data ++ [' '])) := by
    intro m
    rcases List.mem_cons.mp m with e | m2
    · exact absurd e (by decide)
    · rcases List.mem_append.mp m2 with m3 | m4
      · exact hbr m3
      · exact absurd m4 (by decide)
  have hs_dm : ∀ c ∈ (' ' :: (k.data ++ [' '])), dotExcluded c = false := by
    intro c m
    rcases List.mem_cons.mp m with e | m2
    · subst e; decide
    · rcases List.mem_append.mp m2 with m3 | m4
      · exact hdm c m3
      · have hc : c = ' ' := by simpa using m4
        subst hc; decide
  have hscan := scanCaps_single (' ' :: (k.data ++ [' '])) hs_ne hs_br hs_dm
  have hmkpad : String.mk (' ' :: (k.data ++ [' '])) = " " ++ k ++ " " := by
    rw [← spad, strMkData]
  have hpdot : '.' ∉ (" " ++ k ++ " ").data := by
    rw [spad]
    intro m
    rcases List.mem_cons.mp m with e | m2
    · exact absurd e (by decide)
    · rcases List.mem_append.mp m2 with m3 | m4
      · exact hdot m3
      · exact absurd m4 (by decide)
  have hkp : ¬ k = " " ++ k ++ " " := by
    intro e
    have h3 : k.data.length = (" " ++ k ++ " ").data.length := by rw [← e]
    rw [spad] at h3
    simp only [List.length_cons, List.length_append, List.length_singleton] at h3
    omega
  refine ⟨?_, ?_, ?_, ?_⟩
  · simp only [textBindingPaths]
    rw [htempl, hscan]
    simp [hmkpad]
  · rw [splitPath_single (" " ++ k ++ " ") hpdot]
    simp [getValGo, findField, hkp, getValGo_nil]
  · rw [splitPath_single k hdot]
    simp [getValGo, findField, getValGo_nil]
  · intro h
    injection h with h2
    exact hv h2.symm

theorem interpolation_capture_verbatim_untrimmed_witness :
    textBindingPaths "\x7b\x7b count \x7d\x7d" = [" count "] ∧
    (getValGo none (.vobj 0 (.cons "count" (.vint 0) (some []) .nil)) (splitPath " count ")).2
      = .ok .undef ∧
    (getValGo none (.vobj 0 (.cons "count" (.vint 0) (some []) .nil)) (splitPath "count")).2
      = .ok (.vint 0) ∧
    (Except.ok Value.undef : Except Unit Value) ≠ .ok (.vint 0) :=
  interpolation_capture_verbatim_untrimmed "count" 0 (.vint 0) []
    (by decide) (by decide) (by decide) (by decide)
    (by intro h; exact absurd h (by intro h2; cases h2))

/-- C4: writing a fresh container value (strictly different from the
current value) to a reactive property recursively wraps it before
notifying, so every key of the container sits in a reactive cell with a
fresh Dependency; a watcher then registered against a nested key is
subscribed to that nested Dependency, and a subsequent write to that
nested key invokes its update and callback. -/
theorem fresh_container_write_rewraps_and_nested_notifies
    (s : MState) (exp exp2 k : String) (cur vk v2 : Value) (subs0 : List Nat)
    (oid w : Nat) (fs : Fields) (d : Option (List Nat))
    (ht : s.target = none)
    (hcell : cellAt s.data (splitPath exp) = some (cur, some subs0))
    (hneq : jsEq (.vobj oid fs) cur = false)
    (hk : findField fs k = some (vk, d))
    (hsplit : splitPath exp2 = splitPath exp ++ [k])
    (hwfresh : wlookup s.ws w = none)
    (hv2 : jsEq v2 (observe vk) = false) :
    cellAt (writeVal s exp (.vobj oid fs)).1.data (splitPath exp2)
      = some (observe vk, some []) ∧
    (newWatcher (writeVal s exp (.vobj oid fs)).1 w exp2).2 = .ok () ∧
    cellAt (newWatcher (writeVal s exp (.vobj oid fs)).1 w exp2).1.data (splitPath exp2)
      = some (observe vk, some [w]) ∧
    (writeVal (newWatcher (writeVal s exp (.vobj oid fs)).1 w exp2).1 exp2 v2).2 = .ok () ∧
    (writeVal (newWatcher (writeVal s exp (.vobj oid fs)).1 w exp2).1 exp2 v2).1.log
      = (newWatcher (writeVal s exp (.vobj oid fs)).1 w exp2).1.log ++ [.upd w, .cb w (observe v2)] := by
  have hsn := setNav_at_cell (splitPath exp) s.data cur (.vobj oid fs) subs0 none hcell hneq
  have hto := writeVal_to_notify s exp (.vobj oid fs) cur subs0 hcell hneq
  rw [ht] at hto
  have hpres := notifyAll_preserve subs0
    { s with data := (setNav none (.vobj oid fs) s.data (splitPath exp)).1, target := none } rfl
  have hdata1 : (writeVal s exp (.vobj oid fs)).1.data
      = (setNav none (.vobj oid fs) s.data (splitPath exp)).1 := by
    rw [hto]; exact hpres.1
  have hws1 : (writeVal s exp (.vobj oid fs)).1.ws = s.ws := by
    rw [hto]; exact hpres.2.1
  have hcellD : cellAt (setNav none (.vobj oid fs) s.data (splitPath exp)).1 (splitPath exp)
      = some (.vobj oid (observeFields fs), some subs0) := by
    have := hsn.2
    simpa [observe, tList] using this
  have hnested : cellAt (setNav none (.vobj oid fs) s.data (splitPath exp)).1 (splitPath exp2)
      = some (observe vk, some []) := by
    rw [hsplit, cellAt_append_key (splitPath exp) _ oid (observeFields fs) (some subs0) k hcellD]
    exact observeFields_findField fs k vk d hk
  have ha : cellAt (writeVal s exp (.vobj oid fs)).1.data (splitPath exp2)
      = some (observe vk, some []) := by
    rw [hdata1]; exact hnested
  have hnw := newWatcher_at_cell (writeVal s exp (.vobj oid fs)).1 w exp2 (observe vk) (some []) ha
  have hb : (newWatcher (writeVal s exp (.vobj oid fs)).1 w exp2).2 = .ok () := by
    rw [hnw.1]
  have hc : cellAt (newWatcher (writeVal s exp (.vobj oid fs)).1 w exp2).1.data (splitPath exp2)
      = some (observe vk, some [w]) := by
    rw [hnw.1]
    have := hnw.2
    simpa [addTarget, tList] using this
  have ht2 : (newWatcher (writeVal s exp (.vobj oid fs)).1 w exp2).1.target = none := by
    rw [hnw.1]
  have hw2 : wlookup (newWatcher (writeVal s exp (.vobj oid fs)).1 w exp2).1.ws w
      = some (exp2, observe vk) := by
    rw [hnw.1]
    simp only
    rw [hws1]
    exact wlookup_append_new s.ws w exp2 (observe vk) hwfresh
  have hcb : jsEq (observe v2) (observe vk) = false := by
    rw [jsEq_observe_left]; exact hv2
  have hfire := writeVal_fire (newWatcher (writeVal s exp (.vobj oid fs)).1 w exp2).1
    exp2 v2 (observe vk) (observe vk) w ht2 hc hv2 hw2 hcb
  refine ⟨ha, hb, hc, ?_, ?_⟩
  · rw [hfire.1]
  · rw [hfire.1]

theorem fresh_container_write_rewraps_and_nested_notifies_witness :
    cellAt (writeVal ⟨.vobj 0 (.cons "a" (.vint 0) (some []) .nil), [], none, []⟩ "a" (.vobj 7 (.cons "b" (.vint 1) none .nil))).1.data (splitPath "a.b")
      = some (observe (.vint 1), some []) ∧
    (newWatcher (writeVal ⟨.vobj 0 (.cons "a" (.vint 0) (some []) .nil), [], none, []⟩ "a" (.vobj 7 (.cons "b" (.vint 1) none .nil))).1 0 "a.b").2 = .ok () ∧
    cellAt (newWatcher (writeVal ⟨.vobj 0 (.cons "a" (.vint 0) (some []) .nil), [], none, []⟩ "a" (.vobj 7 (.cons "b" (.vint 1) none .nil))).1 0 "a.b").1.data (splitPath "a.b")
      = some (observe (.vint 1), some [0]) ∧
    (writeVal (newWatcher (writeVal ⟨.vobj 0 (.cons "a" (.vint 0) (some []) .nil), [], none, []⟩ "a" (.vobj 7 (.cons "b" (.vint 1) none .nil))).1 0 "a.b").1 "a.b" (.vint 2)).2 = .ok () ∧
    (writeVal (newWatcher (writeVal ⟨.vobj 0 (.cons "a" (.vint 0) (some []) .nil), [], none, []⟩ "a" (.vobj 7 (.cons "b" (.vint 1) none .nil))).1 0 "a.b").1 "a.b" (.vint 2)).1.log
      = (newWatcher (writeVal ⟨.vobj 0 (.cons "a" (.vint 0) (some []) .nil), [], none, []⟩ "a" (.vobj 7 (.cons "b" (.vint 1) none .nil))).1 0 "a.b").1.log ++ [.upd 0, .cb 0 (observe (.vint 2))] :=
  fresh_container_write_rewraps_and_nested_notifies
    ⟨.vobj 0 (.cons "a" (.vint 0) (some []) .nil), [], none, []⟩
    "a" "a.b" "b" (.vint 0) (.vint 1) (.vint 2) [] 7 0
    (.cons "b" (.vint 1) none .nil) none
    rfl rfl rfl rfl rfl rfl rfl
